import Mathlib

/-!
Shallow embedding of the Anvil consensus node (`consensus-node.cjs`).

Modelling conventions:
* JavaScript numbers are modelled as rationals (`ℚ`), except in the
  effectiveness engine, which is stated over an arbitrary linear ordered
  field so that the claims about `Math.exp` can be instantiated at `ℝ`
  with `Real.exp`.
* JS `Map`s are insertion-ordered association lists; `Map.set` replaces
  the value in place, `Map.get` returns the first binding.
* JS `Set`s are insertion-ordered duplicate-free lists.
* The cryptographic primitives (SHA-256 of a canonical serialisation,
  Ed25519 sign/verify, address derivation) are parameters of the
  embedding, collected in the `Crypto` structure; nothing is assumed
  about them unless a theorem says so.
* A JS string field that the source tests for truthiness is modelled as
  a `String` whose missing/falsy value is `""`.
-/

namespace Anvil

/-- JS `Map.get`: the first binding of the key, if any. -/
def mapGet {κ α : Type} [DecidableEq κ] (m : List (κ × α)) (k : κ) : Option α :=
  (m.find? (fun p => decide (p.1 = k))).map Prod.snd

/-- JS `Map.has`. -/
def mapHas {κ α : Type} [DecidableEq κ] (m : List (κ × α)) (k : κ) : Bool :=
  m.any (fun p => decide (p.1 = k))

/-- JS `Map.set` (also a JS object property assignment): update in place
when the key is present, keeping insertion order; append otherwise. -/
def mapSet {κ α : Type} [DecidableEq κ] (m : List (κ × α)) (k : κ) (v : α) : List (κ × α) :=
  if mapHas m k then m.map (fun p => if p.1 = k then (k, v) else p) else m ++ [(k, v)]

/-- JS `Set.add`. -/
def setAdd {α : Type} [DecidableEq α] (s : List α) (x : α) : List α :=
  if x ∈ s then s else s ++ [x]

/-- An account: `{ balance, nonce }`. -/
structure Account where
  balance : ℚ
  nonce : ℚ
deriving DecidableEq, Repr

/-- A transaction: `{ from, to, amount, nonce, timestamp, signature }`. -/
structure Tx where
  «from» : String
  «to» : String
  amount : ℚ
  nonce : ℚ
  timestamp : ℕ
  signature : String
deriving DecidableEq, Repr

/-- A challenge receipt. -/
structure Receipt where
  challengeId : String
  «from» : String
  «to» : String
  epoch : ℕ
  success : Bool
  latencyMs : ℕ
  timestamp : ℕ
  workResult : ℕ
  signature : String
deriving DecidableEq, Repr

/-- The fields of a block other than `hash`, `leaderSignature`, `votes`;
this is exactly the value hashed by `hash({ ...block, hash: undefined,
leaderSignature: undefined, votes: undefined })`. -/
structure BlockCore where
  epoch : ℕ
  previousHash : String
  leader : String
  leaderPubKey : String
  timestamp : ℕ
  txRoot : String
  receiptRoot : String
  stateRoot : String
  receipts : List Receipt
  transactions : List Tx
  effectivenessUpdates : List (String × ℚ)
  rewards : List (String × ℚ)
deriving DecidableEq, Repr

/-- A full block. `votes` is the object `{ nodeId: signature }`. -/
structure Block extends BlockCore where
  hash : String
  leaderSignature : String
  votes : List (String × String)
deriving DecidableEq, Repr

/-- A peer-registry record, with the effectiveness score over an
arbitrary numeric type (`ℚ` in the node state, `ℝ` for the claims about
`Math.exp`). -/
structure Peer (α : Type) where
  url : String
  publicKeyPem : String
  publicKeyHash : String
  lastSeen : ℕ
  effectiveness : α
deriving DecidableEq, Repr

/-- The node's own identity: `NODE_NAME`, `IDENTITY.publicKeyPem`,
`IDENTITY.publicKeyHash`, and its signing closure `sign`. -/
structure NodeIdentity where
  name : String
  publicKeyPem : String
  publicKeyHash : String
  signFn : String → String

/-- The cryptographic primitives, as parameters: `hashStr` is
`hash(string)`; `hashTx`, `hashReceipt`, `hashCore` are `hash(object)`
applied to the respective serialised objects; `hash32 s` is
`parseInt(hash(s).slice(0, 8), 16)`, the first 4 bytes of the digest as
an unsigned integer; `verifySig data sig pem` is `verify(data, sig,
pem)`; `addressOf pem` is the first 20 bytes (40 hex chars) of
SHA-256 over the DER form of the key. -/
structure Crypto where
  hashStr : String → String
  hashTx : Tx → String
  hashReceipt : Receipt → String
  hashCore : BlockCore → String
  hash32 : String → ℕ
  verifySig : String → String → String → Bool
  addressOf : String → String

/-- The vote returned by a follower for a proposal. -/
structure Vote where
  epoch : ℕ
  blockHash : String
  voter : String
  voterPubKey : String
  signature : String
deriving DecidableEq, Repr

/-- Equivocation evidence `{ block1, block2, leader, epoch }`. -/
structure Evidence where
  block1 : Block
  block2 : Block
  leader : String
  epoch : ℕ
deriving DecidableEq, Repr

/-- The reply of the `/propose` handler. -/
structure ProposeResponse where
  ok : Bool
  error : Option String
  vote : Option Vote
  evidence : Option Evidence
deriving DecidableEq, Repr

/-- A `/view-change` message. -/
structure ViewChangeMsg where
  epoch : ℕ
  oldView : ℕ
  newView : ℕ
  «from» : String
  signature : String
deriving DecidableEq, Repr

/-- The parts of the mutable node `state` that the verified operations
touch. `viewChangeVotes` maps the key `"epoch-newView"` to the set of
senders; `seenProposals` maps an epoch to the map blockHash → block;
`slashedNodes` is a set of addresses. -/
structure NodeState where
  peers : List (String × Peer ℚ)
  chain : List Block
  pendingReceipts : List Receipt
  pendingTransactions : List Tx
  accounts : List (String × Account)
  currentEpoch : ℕ
  currentView : ℕ
  proposedBlock : Option Block
  votes : List (String × String)
  viewChangeVotes : List (String × List String)
  seenProposals : List (ℕ × List (String × Block))
  slashedNodes : List String
  effectiveness : ℚ
  statsBlocksCommitted : ℕ
  statsViewChanges : ℕ
  statsSlashEvents : ℕ
deriving DecidableEq, Repr

/-- The all-zero genesis/empty digest `'0'.repeat(64)`. -/
def zero64 : String := String.mk (List.replicate 64 '0')

/-- JS string comparison (`<`) as used by `Array.prototype.sort()`'s
default comparator: lexicographic on code units.  Implemented on the
character lists so that concrete instances compute. -/
def codeUnitLt : List Char → List Char → Bool
  | [], [] => false
  | [], _ :: _ => true
  | _ :: _, [] => false
  | a :: as, b :: bs =>
    if a.val.toNat < b.val.toNat then true
    else if b.val.toNat < a.val.toNat then false
    else codeUnitLt as bs

/-- JS string `≤`, the sort order of `Array.prototype.sort()`. -/
def codeUnitLe (a b : String) : Bool := ! codeUnitLt b.data a.data

/-- One level of the Merkle tree: the loop body of `calculateMerkleRoot`
(`right = hashes[i + 1] || left`, i.e. the last hash is duplicated when
the level has odd length). -/
def merkleLevel (hashStr : String → String) : List String → List String
  | [] => []
  | [x] => [hashStr (x ++ x)]
  | x :: y :: rest => hashStr (x ++ y) :: merkleLevel hashStr rest

theorem merkleLevel_length (hashStr : String → String) :
    ∀ l : List String, (merkleLevel hashStr l).length = (l.length + 1) / 2
  | [] => rfl
  | [_] => by simp [merkleLevel]
  | x :: y :: rest => by
    simp only [merkleLevel, List.length_cons, merkleLevel_length hashStr rest]
    omega

/-- `calculateMerkleRoot` from the source: empty input gives the
all-zero root, a singleton returns its hash unchanged, otherwise hash
adjacent pairs (duplicating the last on odd levels) and recurse. -/
def calculateMerkleRoot (hashStr : String → String) : List String → String
  | [] => zero64
  | [x] => x
  | x :: y :: rest =>
    calculateMerkleRoot hashStr (merkleLevel hashStr (x :: y :: rest))
termination_by l => l.length
decreasing_by
  simp only [merkleLevel_length, List.length_cons]
  omega

/-- `calculateStateRoot` from the source: the overlay-adjusted account
entries `addr:balance:nonce`, then the overlay-only accounts, sorted and
joined with `,`, hashed. -/
def calculateStateRoot (hashStr : String → String) (accounts : List (String × Account))
    (balances : List (String × ℚ)) (nonces : List (String × ℚ)) : String :=
  let entries1 := accounts.map (fun p =>
    let balance := (mapGet balances p.1).getD p.2.balance
    let nonce := (mapGet nonces p.1).getD p.2.nonce
    p.1 ++ ":" ++ toString balance ++ ":" ++ toString nonce)
  let entries2 := (balances.filter (fun p => ¬ mapHas accounts p.1)).map (fun p =>
    p.1 ++ ":" ++ toString p.2 ++ ":" ++ toString ((mapGet nonces p.1).getD 0))
  hashStr (String.intercalate ","
    ((entries1 ++ entries2).insertionSort (fun a b => codeUnitLe a b = true)))

/-- `calculateEffectivenessUpdates` from the source, over an arbitrary
linear ordered field so it can be instantiated at `ℚ` (node state) or at
`ℝ` with `expF = Real.exp`. `expF` stands for `Math.exp`; note the
hard-coded `days = 1 / 144` from the source. The JS `peer?.effectiveness
|| (nodeId === NODE_NAME ? state.effectiveness : 0)` idiom (`0` is
falsy) is modelled case by case. -/
def calculateEffectivenessUpdates {α : Type} [LinearOrderedField α] (expF : α → α)
    (I : NodeIdentity) (peers : List (String × Peer α)) (stateEff : α)
    (receipts : List Receipt) : List (String × α) :=
  let nodeAddresses := peers.foldl
    (fun m p => if p.2.publicKeyHash ≠ "" then mapSet m p.1 p.2.publicKeyHash else m)
    (mapSet ([] : List (String × String)) I.name I.publicKeyHash)
  let allNodes := I.name :: peers.map Prod.fst
  allNodes.foldl (fun updates nodeId =>
    match mapGet nodeAddresses nodeId with
    | none => updates
    | some addr =>
      if addr = "" then updates else
      let currentEff : α :=
        match mapGet peers nodeId with
        | some peer =>
          if peer.effectiveness ≠ 0 then peer.effectiveness
          else if nodeId = I.name then stateEff else 0
        | none => if nodeId = I.name then stateEff else 0
      let wasOnline := receipts.any (fun r => r.«to» = nodeId ∧ r.success)
      let days : α := 1 / 144
      let eff : α :=
        if wasOnline then 1 - (1 - currentEff) * expF (-days / 40)
        else currentEff * expF (-days / 7)
      mapSet updates addr (max 0 (min 1 eff))) []

/-- `calculateRewards` from the source: split the per-epoch pool of 100
tokens proportionally to the new effectiveness scores; no rewards when
the total is zero. -/
def calculateRewards {α : Type} [LinearOrderedField α]
    (effectivenessUpdates : List (String × α)) : List (String × α) :=
  let totalEff := (effectivenessUpdates.map Prod.snd).sum
  if totalEff = 0 then []
  else effectivenessUpdates.foldl
    (fun rewards p => if 0 < p.2 then mapSet rewards p.1 (p.2 / totalEff * 100) else rewards)
    []

/-- The running overlays of the transaction filter in `createBlock`:
the accepted list and the `tempBalances` / `tempNonces` maps. -/
structure TxFilterResult where
  validTxs : List Tx
  tempBalances : List (String × ℚ)
  tempNonces : List (String × ℚ)
deriving DecidableEq, Repr

/-- One iteration of the transaction-filter loop in `createBlock`. -/
def txFilterStep (accounts : List (String × Account)) (acc : TxFilterResult)
    (tx : Tx) : TxFilterResult :=
  if tx.«from» = "coinbase" then
    let toBalance := (mapGet acc.tempBalances tx.«to»).getD
      (((mapGet accounts tx.«to»).getD ⟨0, 0⟩).balance)
    { acc with
      tempBalances := mapSet acc.tempBalances tx.«to» (toBalance + tx.amount)
      validTxs := acc.validTxs ++ [tx] }
  else
    let account := (mapGet accounts tx.«from»).getD ⟨0, 0⟩
    let currentBalance := (mapGet acc.tempBalances tx.«from»).getD account.balance
    let currentNonce := (mapGet acc.tempNonces tx.«from»).getD account.nonce
    if currentBalance < tx.amount then acc
    else if tx.nonce ≠ currentNonce + 1 then acc
    else
      let tempBalances1 := mapSet acc.tempBalances tx.«from» (currentBalance - tx.amount)
      let tempNonces1 := mapSet acc.tempNonces tx.«from» tx.nonce
      let toBalance := (mapGet tempBalances1 tx.«to»).getD
        (((mapGet accounts tx.«to»).getD ⟨0, 0⟩).balance)
      { validTxs := acc.validTxs ++ [tx]
        tempBalances := mapSet tempBalances1 tx.«to» (toBalance + tx.amount)
        tempNonces := tempNonces1 }

/-- The deterministic single-pass transaction filter of `createBlock`,
seeded from the ledger account map. -/
def createBlockFilter (accounts : List (String × Account))
    (transactions : List Tx) : TxFilterResult :=
  transactions.foldl (txFilterStep accounts) ⟨[], [], []⟩

/-- `createBlock` from the source. `expF` is `Math.exp` at type `ℚ`
(the block-building claims do not depend on its values) and `now` is
`Date.now()`. -/
def createBlock (C : Crypto) (I : NodeIdentity) (expF : ℚ → ℚ) (st : NodeState)
    (epoch : ℕ) (receipts : List Receipt) (transactions : List Tx) (now : ℕ) : Block :=
  let previousHash := match st.chain.getLast? with
    | some b => b.hash
    | none => zero64
  let effectivenessUpdates :=
    calculateEffectivenessUpdates expF I st.peers st.effectiveness receipts
  let rewards := calculateRewards effectivenessUpdates
  let fr := createBlockFilter st.accounts transactions
  let txRoot := calculateMerkleRoot C.hashStr (fr.validTxs.map C.hashTx)
  let receiptRoot := calculateMerkleRoot C.hashStr (receipts.map C.hashReceipt)
  let stateRoot := calculateStateRoot C.hashStr st.accounts fr.tempBalances fr.tempNonces
  let core : BlockCore :=
    { epoch := epoch
      previousHash := previousHash
      leader := I.name
      leaderPubKey := I.publicKeyPem
      timestamp := now
      txRoot := txRoot
      receiptRoot := receiptRoot
      stateRoot := stateRoot
      receipts := receipts
      transactions := fr.validTxs
      effectivenessUpdates := effectivenessUpdates
      rewards := rewards }
  { toBlockCore := core
    hash := C.hashCore core
    leaderSignature := I.signFn (C.hashCore core)
    votes := [] }

/-- The reward loop of `commitBlock` and `rebuildStateFromChain`:
create the account on first credit, then `balance += reward`. -/
def applyRewards (accounts : List (String × Account))
    (rewards : List (String × ℚ)) : List (String × Account) :=
  rewards.foldl (fun acc p =>
    let acc1 := if mapHas acc p.1 then acc else mapSet acc p.1 ⟨0, 0⟩
    match mapGet acc1 p.1 with
    | some a => mapSet acc1 p.1 ⟨a.balance + p.2, a.nonce⟩
    | none => acc1) accounts

/-- `applyTransaction` from the source: debit the sender (creating it at
zero when absent), set its nonce, credit the recipient.  When
`tx.from === tx.to` the source's two `get` calls alias the same JS
object when the account exists (so the debit and credit cancel and only
the nonce is written), but produce two distinct fresh objects when it
does not (so the final `set` stores the credited copy, with nonce 0);
both outcomes are reproduced here. -/
def applyTransaction (accounts : List (String × Account)) (tx : Tx) :
    List (String × Account) :=
  if tx.«from» = tx.«to» then
    match mapGet accounts tx.«from» with
    | some a => mapSet accounts tx.«from» ⟨a.balance, tx.nonce⟩
    | none => mapSet accounts tx.«from» ⟨tx.amount, 0⟩
  else
    let fromAccount := (mapGet accounts tx.«from»).getD ⟨0, 0⟩
    let toAccount := (mapGet accounts tx.«to»).getD ⟨0, 0⟩
    let accounts1 := mapSet accounts tx.«from» ⟨fromAccount.balance - tx.amount, tx.nonce⟩
    mapSet accounts1 tx.«to» ⟨toAccount.balance + tx.amount, toAccount.nonce⟩

/-- The per-transaction body of the replay loop in
`rebuildStateFromChain`: coinbase transactions only credit the
recipient; all others run the same debit/credit/nonce logic as
`applyTransaction` (the source inlines an identical copy of it). -/
def replayTransaction (accounts : List (String × Account)) (tx : Tx) :
    List (String × Account) :=
  if tx.«from» = "coinbase" then
    let toAccount := (mapGet accounts tx.«to»).getD ⟨0, 0⟩
    mapSet accounts tx.«to» ⟨toAccount.balance + tx.amount, toAccount.nonce⟩
  else
    applyTransaction accounts tx

/-- `commitBlock` from the source: append to the chain, apply the
block's effectiveness updates (to the node's own score and to the peer
registry), apply rewards, apply transactions via `applyTransaction`,
drop included receipts/transactions from the pending pools, bump the
counter.  (`saveChain` is persistence-only.) -/
def commitBlock (C : Crypto) (I : NodeIdentity) (st : NodeState) (block : Block) :
    NodeState :=
  let effectiveness1 := block.effectivenessUpdates.foldl
    (fun e p => if p.1 = I.publicKeyHash then p.2 else e) st.effectiveness
  let peers1 := block.effectivenessUpdates.foldl
    (fun ps p => ps.map (fun q =>
      if q.2.publicKeyHash = p.1 then (q.1, { q.2 with effectiveness := p.2 }) else q))
    st.peers
  let accounts1 := applyRewards st.accounts block.rewards
  let accounts2 := block.transactions.foldl applyTransaction accounts1
  let includedReceiptIds := block.receipts.map (·.challengeId)
  let includedTxHashes := block.transactions.map C.hashTx
  { st with
    chain := st.chain ++ [block]
    effectiveness := effectiveness1
    peers := peers1
    accounts := accounts2
    pendingReceipts := st.pendingReceipts.filter
      (fun r => ¬ r.challengeId ∈ includedReceiptIds)
    pendingTransactions := st.pendingTransactions.filter
      (fun t => ¬ C.hashTx t ∈ includedTxHashes)
    statsBlocksCommitted := st.statsBlocksCommitted + 1 }

/-- The account map built by one block of the replay loop in
`rebuildStateFromChain`: rewards first, then the transactions. -/
def rebuildBlockAccounts (accounts : List (String × Account)) (block : Block) :
    List (String × Account) :=
  (block.transactions).foldl replayTransaction (applyRewards accounts block.rewards)

/-- `rebuildStateFromChain` from the source: clear the account map,
replay every block from genesis (rewards, then transactions, coinbase
crediting only), and track the node's own effectiveness (the replay
loop keys that lookup by node name). -/
def rebuildStateFromChain (I : NodeIdentity) (st : NodeState) : NodeState :=
  let accounts := st.chain.foldl rebuildBlockAccounts []
  let effectiveness := st.chain.foldl
    (fun e b => b.effectivenessUpdates.foldl
      (fun e2 p => if p.1 = I.name then p.2 else e2) e)
    st.effectiveness
  { st with accounts := accounts, effectiveness := effectiveness }

/-- `electLeader` from the source: sort the node *names* (self plus the
peer-registry keys), hash `"epoch-<epoch>-view-<currentView>"`, take the
first 4 bytes of the digest as an unsigned integer mod the list length,
and return the name at that index. -/
def electLeader (C : Crypto) (I : NodeIdentity) (st : NodeState) (epoch : ℕ) : String :=
  let allNodes := (I.name :: st.peers.map Prod.fst).insertionSort
    (fun a b => codeUnitLe a b = true)
  if allNodes.length = 0 then I.name
  else
    let index := C.hash32 ("epoch-" ++ toString epoch ++ "-view-" ++ toString st.currentView)
      % allNodes.length
    allNodes.getD index I.name

/-- The leader election of spec §4.6, stated in the spec's words for
comparison with `electLeader`: the sorted list `L` of all known
validator *addresses* (self plus peers), indexed by the first 4 bytes of
`H("epoch-" + E + "-view-" + V)` as an unsigned integer mod `|L|`. -/
def electLeaderSpec (C : Crypto) (I : NodeIdentity) (st : NodeState) (epoch : ℕ) :
    String :=
  let L := (I.publicKeyHash :: st.peers.map (fun p => p.2.publicKeyHash)).insertionSort
    (fun a b => codeUnitLe a b = true)
  if L.length = 0 then I.publicKeyHash
  else
    let idx := C.hash32 ("epoch-" ++ toString epoch ++ "-view-" ++ toString st.currentView)
      % L.length
    L.getD idx I.publicKeyHash

/-- The local chain head hash: the hash of the last committed block, or
the 64-zero genesis hash (`myLastHash` in the source handlers). -/
def chainHead (st : NodeState) : String :=
  match st.chain.getLast? with
  | some b => b.hash
  | none => zero64

/-- `verifyBlockReceipts` from the source: every receipt must carry a
(truthy) `signature`, `challengeId`, `from` and `to`; the result is the
first failure reason, if any. -/
def verifyBlockReceipts : List Receipt → Option String
  | [] => none
  | r :: rest =>
    if r.signature = "" then some "Receipt missing signature"
    else if r.challengeId = "" ∨ r.«from» = "" ∨ r.«to» = "" then
      some "Receipt missing required fields"
    else verifyBlockReceipts rest

/-- `checkEquivocation` from the source: ensure the epoch bucket exists,
scan it for a block with the same leader and a different hash (returning
evidence without storing the new block), otherwise store the proposal
and evict the oldest epoch when more than 10 are retained.  Returns the
evidence, if any, and the updated `seenProposals`. -/
def checkEquivocation (seen : List (ℕ × List (String × Block))) (block : Block) :
    Option Evidence × List (ℕ × List (String × Block)) :=
  let seen1 := if mapHas seen block.epoch then seen else mapSet seen block.epoch []
  let epochProposals := (mapGet seen1 block.epoch).getD []
  match epochProposals.find? (fun p => p.2.leader = block.leader ∧ p.1 ≠ block.hash) with
  | some p => (some ⟨p.2, block, block.leader, block.epoch⟩, seen1)
  | none =>
    let seen2 := mapSet seen1 block.epoch (mapSet epochProposals block.hash block)
    let seen3 :=
      if 10 < seen2.length then
        match (seen2.map Prod.fst).min? with
        | some oldestEpoch => seen2.filter (fun p => p.1 ≠ oldestEpoch)
        | none => seen2
      else seen2
    (none, seen3)

/-- `slashNode` from the source: derive the leader's address from its
public key, skip if already slashed, otherwise record the slash, bump
the counter, and — when the account exists — deduct
`min(balance, slashAmount)` with `slashAmount = 500`.  (The evidence
argument is only logged by the source; the source records the slash and
bumps the counter before reading the account, which cannot observe the
difference, so the updated record is built in one step per arm here.) -/
def slashNode (C : Crypto) (st : NodeState) (leaderPubKey : String) (_evidence : Evidence) :
    NodeState :=
  let addr := C.addressOf leaderPubKey
  if addr ∈ st.slashedNodes then st
  else
    match mapGet st.accounts addr with
    | some account =>
      { st with
        slashedNodes := setAdd st.slashedNodes addr
        statsSlashEvents := st.statsSlashEvents + 1
        accounts := mapSet st.accounts addr
          ⟨account.balance - min account.balance 500, account.nonce⟩ }
    | none =>
      { st with
        slashedNodes := setAdd st.slashedNodes addr
        statsSlashEvents := st.statsSlashEvents + 1 }

/-- `handleBlockProposal` from the source: check equivocation first
(slashing and refusing on detection), then the structural receipt check;
when the block's `previousHash` does not extend the local head, check
the recomputed hash and the leader signature ("simplified sync") and
otherwise accept anyway; finally store the proposal and return a signed
vote.  Note that when `previousHash` does match the local head, no
leader, hash, signature or transaction check is performed. -/
def handleBlockProposal (C : Crypto) (I : NodeIdentity) (st : NodeState) (block : Block) :
    NodeState × ProposeResponse :=
  let (equivEvidence, seen1) := checkEquivocation st.seenProposals block
  let st1 := { st with seenProposals := seen1 }
  match equivEvidence with
  | some evidence =>
    (slashNode C st1 block.leaderPubKey evidence,
      ⟨false, some "Equivocation detected", none, some evidence⟩)
  | none =>
    match verifyBlockReceipts block.receipts with
    | some reason => (st1, ⟨false, some reason, none, none⟩)
    | none =>
      let myLastHash := chainHead st1
      if block.previousHash ≠ myLastHash ∧ block.hash ≠ C.hashCore block.toBlockCore then
        (st1, ⟨false, some "Hash mismatch", none, none⟩)
      else if block.previousHash ≠ myLastHash ∧
          ¬ C.verifySig block.hash block.leaderSignature block.leaderPubKey then
        (st1, ⟨false, some "Invalid signature", none, none⟩)
      else
        ({ st1 with proposedBlock := some block },
          ⟨true, none, some
            ⟨block.epoch, block.hash, I.name, I.publicKeyPem, I.signFn block.hash⟩, none⟩)

/-- `handleCommittedBlock` from the source: skip blocks already on the
chain, require at least 2 votes (a hard-coded constant), check the
recomputed hash and the leader signature, then commit. -/
def handleCommittedBlock (C : Crypto) (I : NodeIdentity) (st : NodeState) (block : Block) :
    NodeState :=
  if st.chain.any (fun b => b.hash = block.hash) then st
  else if block.votes.length < 2 then st
  else if block.hash ≠ C.hashCore block.toBlockCore then st
  else if ¬ C.verifySig block.hash block.leaderSignature block.leaderPubKey then st
  else commitBlock C I st block

/-- `CONFIG.quorumFraction` is the JS literal `0.67`. -/
def quorumFraction : ℚ := 67 / 100

/-- `Math.ceil(totalNodes * CONFIG.quorumFraction)` for a validator set
of `totalNodes` nodes. -/
def votesNeeded (totalNodes : ℕ) : ℕ := Nat.ceil ((totalNodes : ℚ) * quorumFraction)

/-- `handleViewChange` from the source: drop messages for other epochs
or non-increasing views; add the sender to the per-`(epoch, newView)`
tally (a set of `from` strings — the signature field is never read);
at quorum, adopt the new view, clear the proposal and votes, and bump
the counter. -/
def handleViewChange (st : NodeState) (viewChange : ViewChangeMsg) : NodeState :=
  if viewChange.epoch ≠ st.currentEpoch then st
  else if viewChange.newView ≤ st.currentView then st
  else
    let key := toString viewChange.epoch ++ "-" ++ toString viewChange.newView
    let tally := setAdd ((mapGet st.viewChangeVotes key).getD []) viewChange.«from»
    let viewChangeVotes1 := mapSet st.viewChangeVotes key tally
    if votesNeeded (st.peers.length + 1) ≤ tally.length then
      { st with
        viewChangeVotes := viewChangeVotes1
        currentView := viewChange.newView
        proposedBlock := none
        votes := []
        statsViewChanges := st.statsViewChanges + 1 }
    else { st with viewChangeVotes := viewChangeVotes1 }

/-- Spec §4.2: pair adjacent digests, duplicating the last one when the
level has odd length. -/
def pairUp : List String → List (String × String)
  | [] => []
  | [x] => [(x, x)]
  | x :: y :: rest => (x, y) :: pairUp rest

theorem pairUp_length : ∀ l : List String, (pairUp l).length = (l.length + 1) / 2
  | [] => rfl
  | [_] => by simp [pairUp]
  | x :: y :: rest => by
    simp only [pairUp, List.length_cons, pairUp_length rest]
    omega

/-- The Merkle root as the spec words it (§4.2): pair adjacent nodes,
duplicate the last hash on odd levels, `parent = hash(left || right)`,
repeat until one root remains; empty input yields the all-zero root and
a single input returns that hash unchanged. -/
def merkleRootSpec (hashStr : String → String) : List String → String
  | [] => zero64
  | [x] => x
  | x :: y :: rest =>
    merkleRootSpec hashStr ((pairUp (x :: y :: rest)).map (fun p => hashStr (p.1 ++ p.2)))
termination_by l => l.length
decreasing_by
  simp only [List.length_map, pairUp_length, List.length_cons]
  omega

/-- The ledger read `state.accounts.get(addr) || { balance: 0, nonce: 0 }`. -/
def accountOf (accounts : List (String × Account)) (addr : String) : Account :=
  (mapGet accounts addr).getD ⟨0, 0⟩

/-- The balance the transaction filter sees for an address: the
`tempBalances` overlay when present, else the ledger balance. -/
def overlayBalance (accounts : List (String × Account)) (acc : TxFilterResult)
    (a : String) : ℚ :=
  (mapGet acc.tempBalances a).getD (accountOf accounts a).balance

/-- The nonce the transaction filter sees for an address: the
`tempNonces` overlay when present, else the ledger nonce. -/
def overlayNonce (accounts : List (String × Account)) (acc : TxFilterResult)
    (a : String) : ℚ :=
  (mapGet acc.tempNonces a).getD (accountOf accounts a).nonce

/-- No two accepted non-coinbase transactions reuse a `(from, nonce)`
pair (the amended duplicate rule for the block filter). -/
def txNonceDistinct (t1 t2 : Tx) : Prop :=
  t1.«from» ≠ "coinbase" → t1.«from» = t2.«from» → t1.nonce ≠ t2.nonce

-- Concrete instances used by the claim theorems, witnesses and
-- counterexamples.

/-- A degenerate instantiation of the cryptographic parameters, for
evaluating the handlers on concrete inputs whose behaviour does not
depend on digest values: every hash is `""`, every index 0, every
signature verifies. -/
def cTriv : Crypto :=
  { hashStr := fun _ => ""
    hashTx := fun _ => ""
    hashReceipt := fun _ => ""
    hashCore := fun _ => ""
    hash32 := fun _ => 0
    verifySig := fun _ _ _ => true
    addressOf := fun _ => "" }

/-- A concrete node identity. -/
def idN1 : NodeIdentity := ⟨"n1", "pem1", "a1", fun _ => "sig1"⟩

/-- A freshly started node state (all maps empty). -/
def emptyState : NodeState where
  peers := []
  chain := []
  pendingReceipts := []
  pendingTransactions := []
  accounts := []
  currentEpoch := 0
  currentView := 0
  proposedBlock := none
  votes := []
  viewChangeVotes := []
  seenProposals := []
  slashedNodes := []
  effectiveness := 0
  statsBlocksCommitted := 0
  statsViewChanges := 0
  statsSlashEvents := 0

/-- A peer-registry record with no interesting content. -/
def peerStub : Peer ℚ := ⟨"", "", "", 0, 0⟩

/-- The faucet's coinbase transaction minting 1000 to `addr1`
(`nonce` is the JS timestamp; here 5). -/
def cbTx : Tx := ⟨"coinbase", "addr1", 1000, 5, 0, "coinbase"⟩

/-- A committed block whose only transaction is the coinbase mint. -/
def cbBlock : Block where
  epoch := 1
  previousHash := zero64
  leader := "n1"
  leaderPubKey := "pem1"
  timestamp := 0
  txRoot := ""
  receiptRoot := ""
  stateRoot := ""
  receipts := []
  transactions := [cbTx]
  effectivenessUpdates := []
  rewards := []
  hash := "h1"
  leaderSignature := "s1"
  votes := []

/-- Crypto parameters whose canonical block hash is the constant
`"bh"`, so that `quorumBlock` below hash-checks successfully. -/
def cC2 : Crypto := { cTriv with hashCore := fun _ => "bh" }

/-- A committed block carrying exactly two votes. -/
def quorumBlock : Block where
  epoch := 1
  previousHash := zero64
  leader := "n2"
  leaderPubKey := "pem2"
  timestamp := 0
  txRoot := ""
  receiptRoot := ""
  stateRoot := ""
  receipts := []
  transactions := []
  effectivenessUpdates := []
  rewards := []
  hash := "bh"
  leaderSignature := "s2"
  votes := [("v1", "s1"), ("v2", "s2")]

/-- The same committed block with a single vote. -/
def oneVoteBlock : Block := { quorumBlock with votes := [("v1", "s1")] }

/-- A receiver that knows six peers (a validator set of seven). -/
def sixPeerState : NodeState := { emptyState with
  peers := [("p1", peerStub), ("p2", peerStub), ("p3", peerStub),
    ("p4", peerStub), ("p5", peerStub), ("p6", peerStub)] }

/-- Crypto parameters under which `wrongLeaderBlock` fails every
§4.6 validation check: its canonical hash is `"real"` (≠ the block's
hash field), no signature ever verifies, and the election index is 1. -/
def cC3 : Crypto := { cTriv with
  hashCore := fun _ => "real"
  verifySig := fun _ _ _ => false
  hash32 := fun _ => 1 }

/-- The identity of the follower `alice`. -/
def idAlice : NodeIdentity := ⟨"alice", "pemA", "aA", fun _ => "sigA"⟩

/-- `alice`'s state: one peer `bob`, empty chain, epoch 1. -/
def aliceState : NodeState :=
  { emptyState with peers := [("bob", peerStub)], currentEpoch := 1 }

/-- A transfer from an unfunded sender, so the §4.5 filter rejects it. -/
def unfundedTx : Tx := ⟨"nobody", "x", 5, 1, 0, "s"⟩

/-- A proposal extending `alice`'s (empty) chain head whose leader is
not the elected leader, whose hash field does not match the canonical
hash, whose signature does not verify, and whose only transaction
fails the filter. -/
def wrongLeaderBlock : Block where
  epoch := 1
  previousHash := zero64
  leader := "alice"
  leaderPubKey := "pemX"
  timestamp := 0
  txRoot := ""
  receiptRoot := ""
  stateRoot := ""
  receipts := []
  transactions := [unfundedTx]
  effectivenessUpdates := []
  rewards := []
  hash := "junk"
  leaderSignature := "bad"
  votes := []

/-- Crypto parameters deriving the constant address `"mallory"` from
any public key (signatures verify, as the equivocation claim assumes). -/
def cC4 : Crypto := { cTriv with addressOf := fun _ => "mallory" }

/-- The first of two conflicting proposals signed by leader `lead`. -/
def equivBlock1 : Block where
  epoch := 5
  previousHash := zero64
  leader := "lead"
  leaderPubKey := "pemL"
  timestamp := 0
  txRoot := ""
  receiptRoot := ""
  stateRoot := ""
  receipts := []
  transactions := []
  effectivenessUpdates := []
  rewards := []
  hash := "h1"
  leaderSignature := "sL1"
  votes := []

/-- The second conflicting proposal: same leader and epoch, another hash. -/
def equivBlock2 : Block :=
  { equivBlock1 with timestamp := 1, hash := "h2", leaderSignature := "sL2" }

/-- An observer that already holds `equivBlock1` for epoch 5 and has
1000 tokens on Mallory's account. -/
def observerState : NodeState := { emptyState with
  seenProposals := [(5, [("h1", equivBlock1)])]
  accounts := [("mallory", ⟨1000, 7⟩), ("other", ⟨50, 2⟩)] }

/-- A one-account ledger for the transaction-filter claims. -/
def accounts5 : List (String × Account) := [("A", ⟨100, 0⟩)]

/-- Rejected duplicate: nonce 2 while nonce 1 is expected. -/
def dupTxEarly : Tx := ⟨"A", "B", 20, 2, 0, "s1"⟩

/-- The transaction that makes nonce 2 the next expected one. -/
def dupTxMid : Tx := ⟨"A", "B", 10, 1, 0, "s2"⟩

/-- Accepted duplicate of `(A, 2)`, later in the input order. -/
def dupTxLate : Tx := ⟨"A", "B", 10, 2, 0, "s3"⟩

/-- A node named `alice` whose address is `"ffff"`. -/
def idAliceF : NodeIdentity := ⟨"alice", "pemA", "ffff", fun _ => ""⟩

/-- A node named `bob` whose address is `"bbbb"`. -/
def idBob : NodeIdentity := ⟨"bob", "pemB", "bbbb", fun _ => ""⟩

/-- `alice`'s view of a two-node network `{alice, bob}`. -/
def aliceTwoNodeState : NodeState := { emptyState with peers := [("bob", peerStub)] }

/-- `bob`'s view of the same two-node network. -/
def bobTwoNodeState : NodeState := { emptyState with peers := [("alice", peerStub)] }

/-- A view-change tally one sender short of quorum for `(3, 1)` in a
two-node network. -/
def viewChangeState : NodeState := { emptyState with
  peers := [("p1", peerStub)]
  currentEpoch := 3
  viewChangeVotes := [("3-1", ["f0"])] }

/-- The second view-change message for `(3, 1)`. -/
def viewChangeMsg2 : ViewChangeMsg := ⟨3, 0, 1, "f1", "sigZ"⟩

-- Helper lemmas about the JS map/set embedding.

theorem mapGet_nil {κ α : Type} [DecidableEq κ] (k : κ) :
    mapGet ([] : List (κ × α)) k = none := rfl

theorem mapGet_cons {κ α : Type} [DecidableEq κ] (a : κ) (b : α) (m : List (κ × α)) (k : κ) :
    mapGet ((a, b) :: m) k = if a = k then some b else mapGet m k := by
  by_cases h : a = k <;> simp [mapGet, List.find?, h]

theorem mapHas_cons {κ α : Type} [DecidableEq κ] (a : κ) (b : α) (m : List (κ × α)) (k : κ) :
    mapHas ((a, b) :: m) k = (decide (a = k) || mapHas m k) := by
  simp [mapHas]

theorem mapGet_append_of_getD {κ α : Type} [DecidableEq κ]
    (m1 m2 : List (κ × α)) (k : κ) :
    mapGet (m1 ++ m2) k = ((mapGet m1 k).map some).getD (mapGet m2 k) := by
  induction m1 with
  | nil => simp [mapGet_nil]
  | cons p m ih =>
    obtain ⟨a, b⟩ := p
    by_cases h : a = k <;> simp [mapGet_cons, h, ih]

theorem mapGet_replace_self {κ α : Type} [DecidableEq κ] (m : List (κ × α)) (k : κ) (v : α) :
    mapGet (m.map (fun p => if p.1 = k then (k, v) else p)) k
      = if mapHas m k then some v else none := by
  induction m with
  | nil => simp [mapGet_nil, mapHas]
  | cons p m ih =>
    obtain ⟨a, b⟩ := p
    by_cases h : a = k
    · subst h
      simp [mapGet_cons, mapHas_cons]
    · simp only [List.map_cons]
      rw [if_neg h, mapGet_cons, if_neg h, ih, mapHas_cons]
      simp [h]

theorem mapGet_mapSet_self {κ α : Type} [DecidableEq κ] (m : List (κ × α)) (k : κ) (v : α) :
    mapGet (mapSet m k v) k = some v := by
  unfold mapSet
  by_cases h : mapHas m k
  · rw [if_pos h, mapGet_replace_self, if_pos h]
  · rw [if_neg h, mapGet_append_of_getD]
    have hnone : mapGet m k = none := by
      induction m with
      | nil => rfl
      | cons p m ih =>
        obtain ⟨a, b⟩ := p
        rw [mapHas_cons] at h
        simp only [Bool.or_eq_true, decide_eq_true_eq, not_or] at h
        rw [mapGet_cons, if_neg h.1]
        exact ih (by simpa using h.2)
    simp [hnone, mapGet_cons]

theorem mapGet_replace_ne {κ α : Type} [DecidableEq κ] (m : List (κ × α)) (k k' : κ) (v : α)
    (hne : k' ≠ k) :
    mapGet (m.map (fun p => if p.1 = k then (k, v) else p)) k' = mapGet m k' := by
  induction m with
  | nil => rfl
  | cons p m ih =>
    obtain ⟨a, b⟩ := p
    by_cases hak : a = k
    · subst hak
      rw [List.map_cons, if_pos rfl, mapGet_cons, if_neg (fun hh => hne hh.symm),
        mapGet_cons, if_neg (fun hh => hne hh.symm), ih]
    · rw [List.map_cons, if_neg hak, mapGet_cons, mapGet_cons, ih]

theorem mapGet_mapSet_ne {κ α : Type} [DecidableEq κ] (m : List (κ × α)) (k k' : κ) (v : α)
    (hne : k' ≠ k) : mapGet (mapSet m k v) k' = mapGet m k' := by
  unfold mapSet
  by_cases h : mapHas m k
  · rw [if_pos h, mapGet_replace_ne m k k' v hne]
  · rw [if_neg h, mapGet_append_of_getD]
    cases hk' : mapGet m k' with
    | some b => simp
    | none =>
      simp only [Option.map_none', Option.getD_none, mapGet_cons, mapGet_nil]
      rw [if_neg (fun hh => hne hh.symm)]

theorem mapHas_mapSet_self {κ α : Type} [DecidableEq κ] (m : List (κ × α)) (k : κ) (v : α) :
    mapHas (mapSet m k v) k = true := by
  unfold mapSet
  by_cases h : mapHas m k
  · rw [if_pos h]
    simp only [mapHas, List.any_eq_true] at h ⊢
    obtain ⟨p, hp, hpk⟩ := h
    refine ⟨(k, v), List.mem_map.2 ⟨p, hp, ?_⟩, by simp⟩
    simp only [decide_eq_true_eq] at hpk
    simp [hpk]
  · rw [if_neg h]
    simp [mapHas]

theorem mapGet_isSome_of_mapHas {κ α : Type} [DecidableEq κ] (m : List (κ × α)) (k : κ) :
    mapHas m k = true ↔ (mapGet m k).isSome := by
  induction m with
  | nil => simp [mapHas, mapGet_nil]
  | cons p m ih =>
    obtain ⟨a, b⟩ := p
    by_cases h : a = k <;> simp [mapHas_cons, mapGet_cons, h, ih]

theorem mapSet_mapSet_same {κ α : Type} [DecidableEq κ] (m : List (κ × α)) (k : κ) (v : α) :
    mapSet (mapSet m k v) k v = mapSet m k v := by
  have hrepl : ∀ l : List (κ × α),
      (l.map (fun p => if p.1 = k then (k, v) else p)).map
          (fun p => if p.1 = k then (k, v) else p)
        = l.map (fun p => if p.1 = k then (k, v) else p) := by
    intro l
    rw [List.map_map]
    refine List.map_congr_left (fun p _ => ?_)
    by_cases h : p.1 = k <;> simp [h]
  conv_lhs => rw [mapSet]
  rw [if_pos (mapHas_mapSet_self m k v)]
  unfold mapSet
  by_cases h : mapHas m k
  · rw [if_pos h, hrepl]
  · rw [if_neg h, List.map_append]
    have hm : m.map (fun p => if p.1 = k then (k, v) else p) = m := by
      conv_rhs => rw [← List.map_id m]
      refine List.map_congr_left (fun p hp => ?_)
      have hk : ¬ p.1 = k := by
        intro hk
        apply absurd _ h
        simp only [mapHas, List.any_eq_true]
        exact ⟨p, hp, by simp [hk]⟩
      simp [hk]
    simp [hm]

theorem mem_setAdd_self {α : Type} [DecidableEq α] (s : List α) (x : α) :
    x ∈ setAdd s x := by
  unfold setAdd
  by_cases h : x ∈ s <;> simp [h]

theorem setAdd_of_mem {α : Type} [DecidableEq α] {s : List α} {x : α} (h : x ∈ s) :
    setAdd s x = s := by
  simp [setAdd, h]

-- Claim theorems.

/-- **C1.** The spec claims that rebuilding the account map by replaying
the chain from genesis (`rebuildStateFromChain`) yields exactly the same
account map as the one produced incrementally by `commitBlock`.  The
code violates this on any chain containing a coinbase transaction: the
incremental path applies it through `applyTransaction`, which has no
coinbase case and therefore creates and debits an account keyed by the
sentinel `"coinbase"`, while the replay path credits only.  Committing
the one-coinbase-transaction block `cbBlock` from a fresh state leaves
an account `"coinbase"` with balance `-1000`; replaying the same chain
does not, so the two maps differ. -/
theorem replay_commit_coinbase_divergence :
    mapGet (commitBlock cTriv idN1 emptyState cbBlock).accounts "coinbase"
        = some ⟨-1000, 5⟩
    ∧ mapGet (rebuildStateFromChain idN1 (commitBlock cTriv idN1 emptyState cbBlock)).accounts
        "coinbase" = none
    ∧ (rebuildStateFromChain idN1 (commitBlock cTriv idN1 emptyState cbBlock)).accounts
        ≠ (commitBlock cTriv idN1 emptyState cbBlock).accounts := by
  have h1 : mapGet (commitBlock cTriv idN1 emptyState cbBlock).accounts "coinbase"
      = some ⟨-1000, 5⟩ := by
    simp [commitBlock, cTriv, idN1, emptyState, cbBlock, cbTx, applyRewards,
      applyTransaction, mapGet, mapSet, mapHas]
  have h2 : mapGet
      (rebuildStateFromChain idN1 (commitBlock cTriv idN1 emptyState cbBlock)).accounts
      "coinbase" = none := by
    simp [rebuildStateFromChain, rebuildBlockAccounts, commitBlock, cTriv, idN1,
      emptyState, cbBlock, cbTx, applyRewards, replayTransaction, applyTransaction,
      mapGet, mapSet, mapHas]
  refine ⟨h1, h2, fun h => ?_⟩
  rw [h, h1] at h2
  exact Option.noConfusion h2

/-- **C6.** Applying a coinbase transaction must never debit any
account.  The replay path (`replayTransaction`) indeed credits only,
but the incremental commit path applies coinbase transactions through
`applyTransaction`, which debits the sender unconditionally: applying
the faucet transaction `cbTx` to an empty account map creates the
sentinel account `"coinbase"` with balance `-1000` and nonce `5`,
violating the claim on the commit path. -/
theorem applyTransaction_coinbase_debit :
    applyTransaction [] cbTx
        = [("coinbase", ⟨-1000, 5⟩), ("addr1", ⟨1000, 0⟩)]
    ∧ replayTransaction [] cbTx = [("addr1", ⟨1000, 0⟩)] := by
  constructor
  · simp [applyTransaction, cbTx, mapGet, mapSet, mapHas]
  · simp [replayTransaction, cbTx, mapGet, mapSet, mapHas]

/-- **C2 (counterexample).** The claim states that a node receiving a
committed block appends it only when `|votes| ≥ ⌈N · q⌉` for its known
validator set of size `N` (here `N = 7`: six peers plus self, so 5
votes are needed at `q = 2/3`), and that a block below that threshold
is rejected.  The code only requires the hard-coded constant 2:
`quorumBlock` carries 2 votes, far below quorum, yet is appended. -/
theorem commit_below_quorum_accepted :
    (handleCommittedBlock cC2 idN1 sixPeerState quorumBlock).chain
        = sixPeerState.chain ++ [quorumBlock]
    ∧ sixPeerState.peers.length + 1 = 7
    ∧ quorumBlock.votes.length < Nat.ceil ((7 : ℚ) * (2 / 3)) := by
  refine ⟨by decide, by decide, ?_⟩
  have : Nat.ceil ((7 : ℚ) * (2 / 3)) = 5 := by norm_num [Nat.ceil_eq_iff]
  rw [this]
  decide

/-- **C2 (amended).** What `handleCommittedBlock` actually enforces:
a block it has not seen before is appended (via `commitBlock`) only if
the leader signature verifies over the block hash, the hash field
matches the recomputed canonical hash, and `block.votes` has at least
2 entries — a fixed constant independent of the validator-set size;
a committed block with fewer than 2 votes is always rejected and
leaves the state (chain and accounts included) unchanged. -/
theorem handleCommittedBlock_fixed_threshold :
    ∀ (C : Crypto) (I : NodeIdentity) (st : NodeState) (b : Block),
      (handleCommittedBlock C I st b ≠ st →
        C.verifySig b.hash b.leaderSignature b.leaderPubKey = true
        ∧ b.hash = C.hashCore b.toBlockCore
        ∧ 2 ≤ b.votes.length
        ∧ handleCommittedBlock C I st b = commitBlock C I st b)
      ∧ (b.votes.length < 2 → handleCommittedBlock C I st b = st) := by
  intro C I st b
  have hcase : handleCommittedBlock C I st b = st
      ∨ (C.verifySig b.hash b.leaderSignature b.leaderPubKey = true
          ∧ b.hash = C.hashCore b.toBlockCore
          ∧ 2 ≤ b.votes.length
          ∧ handleCommittedBlock C I st b = commitBlock C I st b) := by
    unfold handleCommittedBlock
    split_ifs with h1 h2 h3 h4
    · exact Or.inl rfl
    · exact Or.inl rfl
    · exact Or.inl rfl
    · refine Or.inr ⟨by simpa using h4, by simpa using h3, by omega, rfl⟩
    · exact Or.inl rfl
  constructor
  · intro hne
    rcases hcase with h | h
    · exact absurd h hne
    · exact h
  · intro hlt
    rcases hcase with h | h
    · exact h
    · omega

/-- Witness for the amended C2 theorem: a concrete committed block with
a single vote is rejected and leaves the receiver's state unchanged. -/
theorem handleCommittedBlock_fixed_threshold_witness :
    oneVoteBlock.votes.length < 2
    ∧ handleCommittedBlock cC2 idN1 sixPeerState oneVoteBlock = sixPeerState :=
  ⟨by decide,
    (handleCommittedBlock_fixed_threshold cC2 idN1 sixPeerState oneVoteBlock).2 (by decide)⟩

/-- **C7 (counterexample).** The claim says the elected leader is drawn
from the sorted list of validator *addresses*.  The code sorts and
indexes the list of node *names*: a single node named `"alice"` with
address `"ffff"` elects `"alice"`, whereas the spec's address-based
formula (`electLeaderSpec`, same index formula) yields `"ffff"` — and
this holds for this input whatever the hash returns, since the list has
length 1. -/
theorem leader_by_name_counterexample :
    electLeader cTriv idAliceF emptyState 1 = "alice"
    ∧ electLeaderSpec cTriv idAliceF emptyState 1 = "ffff"
    ∧ electLeader cTriv idAliceF emptyState 1
        ≠ electLeaderSpec cTriv idAliceF emptyState 1 := by
  decide

/-- **C7 (amended).** Leader election is a pure deterministic function
of the epoch, the current view, and the known node *names* (not
addresses): `electLeader` returns the entry of the sorted name list
(self plus the peer-registry keys) at the index given by the first
4 bytes of `H("epoch-" + E + "-view-" + V)` modulo the list length;
consequently any two nodes whose sorted name lists and views coincide
elect the same leader, whatever their own identities are. -/
theorem electLeader_name_determinism :
    ∀ (C : Crypto) (I : NodeIdentity) (st : NodeState) (epoch : ℕ),
      (electLeader C I st epoch =
        ((I.name :: st.peers.map Prod.fst).insertionSort
            (fun a b => codeUnitLe a b = true)).getD
          (C.hash32 ("epoch-" ++ toString epoch ++ "-view-" ++ toString st.currentView)
            % ((I.name :: st.peers.map Prod.fst).insertionSort
                (fun a b => codeUnitLe a b = true)).length)
          I.name)
      ∧ ∀ (I2 : NodeIdentity) (st2 : NodeState),
          (I.name :: st.peers.map Prod.fst).insertionSort (fun a b => codeUnitLe a b = true)
            = (I2.name :: st2.peers.map Prod.fst).insertionSort
                (fun a b => codeUnitLe a b = true) →
          st.currentView = st2.currentView →
          electLeader C I st epoch = electLeader C I2 st2 epoch := by
  have hlen : ∀ (I : NodeIdentity) (st : NodeState),
      ((I.name :: st.peers.map Prod.fst).insertionSort
          (fun a b => codeUnitLe a b = true)).length = st.peers.length + 1 := by
    intro I st
    rw [List.length_insertionSort]
    simp
  have key : ∀ (C : Crypto) (I : NodeIdentity) (st : NodeState) (epoch : ℕ),
      electLeader C I st epoch =
        ((I.name :: st.peers.map Prod.fst).insertionSort
            (fun a b => codeUnitLe a b = true)).getD
          (C.hash32 ("epoch-" ++ toString epoch ++ "-view-" ++ toString st.currentView)
            % ((I.name :: st.peers.map Prod.fst).insertionSort
                (fun a b => codeUnitLe a b = true)).length)
          I.name := by
    intro C I st epoch
    unfold electLeader
    rw [if_neg (by rw [hlen]; omega)]
  intro C I st epoch
  refine ⟨key C I st epoch, ?_⟩
  intro I2 st2 hL hV
  rw [key C I st epoch, key C I2 st2 epoch, ← hL, ← hV]
  have hidx : C.hash32 ("epoch-" ++ toString epoch ++ "-view-" ++ toString st.currentView)
      % ((I.name :: st.peers.map Prod.fst).insertionSort
          (fun a b => codeUnitLe a b = true)).length
      < ((I.name :: st.peers.map Prod.fst).insertionSort
          (fun a b => codeUnitLe a b = true)).length := by
    refine Nat.mod_lt _ ?_
    rw [hlen]
    omega
  rw [List.getD_eq_getElem _ I.name hidx, List.getD_eq_getElem _ I2.name hidx]

/-- Witness for the amended C7 theorem: `alice` (with peer `bob`) and
`bob` (with peer `alice`) have the same sorted name list `[alice, bob]`
and the same view, and indeed elect the same leader for epoch 3. -/
theorem electLeader_name_determinism_witness :
    (idAliceF.name :: aliceTwoNodeState.peers.map Prod.fst).insertionSort
        (fun a b => codeUnitLe a b = true)
      = (idBob.name :: bobTwoNodeState.peers.map Prod.fst).insertionSort
          (fun a b => codeUnitLe a b = true)
    ∧ electLeader cTriv idAliceF aliceTwoNodeState 3
        = electLeader cTriv idBob bobTwoNodeState 3 :=
  ⟨by decide,
    (electLeader_name_determinism cTriv idAliceF aliceTwoNodeState 3).2 idBob
      bobTwoNodeState (by decide) rfl⟩

/-- **C4.** If an observer already holds a proposal for the same epoch
with the same leader but a different hash (both with verifying leader
signatures, as the claim assumes — the handler itself never checks
them), then processing the second proposal refuses it (`ok: false`, no
vote) and applies the slash: when the leader's address (derived from the
offending block's public key) has not been slashed before, its balance
drops by `min(balance, 500)`, `slashEvents` increments by one, the
address joins the slashed set, and no other account changes; an
already-slashed address is slashed at most once — no further deduction
and no further `slashEvents` increment. -/
theorem equivocation_slash :
    ∀ (C : Crypto) (I : NodeIdentity) (st : NodeState) (b : Block) (h1 : String) (b1 : Block),
      (h1, b1) ∈ (mapGet st.seenProposals b.epoch).getD [] →
      b1.leader = b.leader →
      h1 ≠ b.hash →
      C.verifySig b1.hash b1.leaderSignature b1.leaderPubKey = true →
      C.verifySig b.hash b.leaderSignature b.leaderPubKey = true →
      ((handleBlockProposal C I st b).2.ok = false
        ∧ (handleBlockProposal C I st b).2.vote = none
        ∧ (if C.addressOf b.leaderPubKey ∈ st.slashedNodes then
            (handleBlockProposal C I st b).1.accounts = st.accounts
            ∧ (handleBlockProposal C I st b).1.statsSlashEvents = st.statsSlashEvents
          else
            (accountOf (handleBlockProposal C I st b).1.accounts
                (C.addressOf b.leaderPubKey)).balance
              = (accountOf st.accounts (C.addressOf b.leaderPubKey)).balance
                - min (accountOf st.accounts (C.addressOf b.leaderPubKey)).balance 500
            ∧ (handleBlockProposal C I st b).1.statsSlashEvents
                = st.statsSlashEvents + 1
            ∧ C.addressOf b.leaderPubKey ∈ (handleBlockProposal C I st b).1.slashedNodes
            ∧ ∀ a, a ≠ C.addressOf b.leaderPubKey →
                mapGet (handleBlockProposal C I st b).1.accounts a
                  = mapGet st.accounts a)) := by
  intro C I st b h1 b1 hmem hlead hhash _hv1 _hv2
  have hsome : (mapGet st.seenProposals b.epoch).isSome := by
    cases hg : mapGet st.seenProposals b.epoch with
    | none => rw [hg] at hmem; simp at hmem
    | some l => simp
  have hhas : mapHas st.seenProposals b.epoch = true :=
    (mapGet_isSome_of_mapHas _ _).mpr hsome
  have hfind : (((mapGet st.seenProposals b.epoch).getD []).find?
      (fun p => decide (p.2.leader = b.leader ∧ p.1 ≠ b.hash))).isSome := by
    rw [List.find?_isSome]
    exact ⟨(h1, b1), hmem, by simp [hlead, hhash]⟩
  obtain ⟨pr, hpr⟩ := Option.isSome_iff_exists.mp hfind
  have hchk : checkEquivocation st.seenProposals b
      = (some ⟨pr.2, b, b.leader, b.epoch⟩, st.seenProposals) := by
    unfold checkEquivocation
    simp only [hhas, if_true, hpr]
  simp only [handleBlockProposal, hchk]
  unfold slashNode
  by_cases hsl : C.addressOf b.leaderPubKey ∈ st.slashedNodes
  · rw [if_pos hsl, if_pos hsl]
    exact ⟨by trivial, by trivial, by trivial, by trivial⟩
  · rw [if_neg hsl, if_neg hsl]
    cases hacc : mapGet st.accounts (C.addressOf b.leaderPubKey) with
    | some account =>
      simp only [hacc]
      refine ⟨by trivial, by trivial, ?_, by trivial, ?_, ?_⟩
      · simp only [accountOf, mapGet_mapSet_self, hacc]
        simp
      · exact mem_setAdd_self _ _
      · intro a hne
        exact mapGet_mapSet_ne _ _ _ _ hne
    | none =>
      simp only [hacc]
      refine ⟨by trivial, by trivial, ?_, by trivial, mem_setAdd_self _ _, fun a _ => by trivial⟩
      simp only [accountOf, hacc]
      norm_num

/-- Witness for C4: the observer holding `equivBlock1` for epoch 5,
upon receiving the conflicting `equivBlock2`, refuses it, debits
Mallory's 1000-token account by 500, counts one slash event, and leaves
the unrelated account untouched. -/
theorem equivocation_slash_witness :
    (handleBlockProposal cC4 idN1 observerState equivBlock2).2.ok = false
    ∧ (accountOf (handleBlockProposal cC4 idN1 observerState equivBlock2).1.accounts
        "mallory").balance = 500
    ∧ (handleBlockProposal cC4 idN1 observerState equivBlock2).1.statsSlashEvents = 1
    ∧ mapGet (handleBlockProposal cC4 idN1 observerState equivBlock2).1.accounts "other"
        = some ⟨50, 2⟩ := by
  have h := equivocation_slash cC4 idN1 observerState equivBlock2 "h1" equivBlock1
    (by decide) rfl (by decide) rfl rfl
  rw [if_neg (by decide)] at h
  have haddr : cC4.addressOf equivBlock2.leaderPubKey = "mallory" := rfl
  rw [haddr] at h
  refine ⟨h.1, ?_, ?_, ?_⟩
  · rw [h.2.2.1]
    have hm : accountOf observerState.accounts "mallory" = ⟨1000, 7⟩ := by
      simp [observerState, accountOf, mapGet, List.find?, emptyState, equivBlock1]
    rw [hm]
    norm_num
  · rw [h.2.2.2.1]
    rfl
  · rw [h.2.2.2.2.2 "other" (by decide)]
    simp [observerState, mapGet, List.find?, emptyState, equivBlock1]

theorem txFilterStep_eq (accounts : List (String × Account)) (acc : TxFilterResult)
    (tx : Tx) :
    txFilterStep accounts acc tx =
      if tx.«from» = "coinbase" then
        { acc with
          tempBalances := mapSet acc.tempBalances tx.«to»
            (overlayBalance accounts acc tx.«to» + tx.amount)
          validTxs := acc.validTxs ++ [tx] }
      else if overlayBalance accounts acc tx.«from» < tx.amount
          ∨ tx.nonce ≠ overlayNonce accounts acc tx.«from» + 1 then acc
      else
        { validTxs := acc.validTxs ++ [tx]
          tempBalances :=
            mapSet (mapSet acc.tempBalances tx.«from»
                (overlayBalance accounts acc tx.«from» - tx.amount)) tx.«to»
              ((mapGet (mapSet acc.tempBalances tx.«from»
                  (overlayBalance accounts acc tx.«from» - tx.amount)) tx.«to»).getD
                (accountOf accounts tx.«to»).balance + tx.amount)
          tempNonces := mapSet acc.tempNonces tx.«from» tx.nonce } := by
  simp only [txFilterStep, overlayBalance, overlayNonce, accountOf]
  split_ifs <;> first | rfl | tauto

theorem txFilterStep_validTxs (accounts : List (String × Account)) (acc : TxFilterResult)
    (tx : Tx) :
    (txFilterStep accounts acc tx).validTxs = acc.validTxs
    ∨ (txFilterStep accounts acc tx).validTxs = acc.validTxs ++ [tx] := by
  rw [txFilterStep_eq]
  split_ifs
  · exact Or.inr rfl
  · exact Or.inl rfl
  · exact Or.inr rfl

theorem foldl_txFilterStep_validTxs (accounts : List (String × Account)) :
    ∀ (txs : List Tx) (acc : TxFilterResult),
      ∃ l, (txs.foldl (txFilterStep accounts) acc).validTxs = acc.validTxs ++ l
        ∧ l.Sublist txs
  | [], acc => ⟨[], by simp, List.nil_sublist []⟩
  | tx :: txs, acc => by
    obtain ⟨l, hl, hs⟩ :=
      foldl_txFilterStep_validTxs accounts txs (txFilterStep accounts acc tx)
    rw [List.foldl_cons]
    rcases txFilterStep_validTxs accounts acc tx with h | h
    · exact ⟨l, by rw [hl, h], hs.cons tx⟩
    · refine ⟨tx :: l, ?_, hs.cons₂ tx⟩
      rw [hl, h, List.append_assoc]
      rfl

theorem txFilterStep_inv (accounts : List (String × Account)) (acc : TxFilterResult)
    (tx : Tx)
    (hpw : List.Pairwise txNonceDistinct acc.validTxs)
    (hinv : ∀ t ∈ acc.validTxs, t.«from» ≠ "coinbase" →
      t.nonce ≤ overlayNonce accounts acc t.«from») :
    List.Pairwise txNonceDistinct (txFilterStep accounts acc tx).validTxs
    ∧ ∀ t ∈ (txFilterStep accounts acc tx).validTxs, t.«from» ≠ "coinbase" →
        t.nonce ≤ overlayNonce accounts (txFilterStep accounts acc tx) t.«from» := by
  rw [txFilterStep_eq]
  split_ifs with hcb hrej
  · constructor
    · rw [List.pairwise_append]
      refine ⟨hpw, List.pairwise_singleton _ _, ?_⟩
      intro t1 h1 t2 h2
      rw [List.mem_singleton] at h2
      subst h2
      intro h1ne h1eq
      exact absurd (h1eq.trans hcb) h1ne
    · intro t ht hne
      rw [List.mem_append, List.mem_singleton] at ht
      rcases ht with ht | rfl
      · exact hinv t ht hne
      · exact absurd hcb hne
  · exact ⟨hpw, hinv⟩
  · push_neg at hrej
    obtain ⟨-, hnonce⟩ := hrej
    constructor
    · rw [List.pairwise_append]
      refine ⟨hpw, List.pairwise_singleton _ _, ?_⟩
      intro t1 h1 t2 h2
      rw [List.mem_singleton] at h2
      subst h2
      intro h1ne h1eq
      have hle := hinv t1 h1 h1ne
      rw [h1eq] at hle
      intro heq
      rw [heq, hnonce] at hle
      linarith
    · intro t ht hne
      rw [List.mem_append, List.mem_singleton] at ht
      rcases ht with ht | rfl
      · by_cases hsame : t.«from» = tx.«from»
        · have hle := hinv t ht hne
          rw [hsame] at hle ⊢
          simp only [overlayNonce, mapGet_mapSet_self, Option.getD_some]
          rw [hnonce]
          linarith
        · have hle := hinv t ht hne
          simpa only [overlayNonce, mapGet_mapSet_ne _ _ _ _ hsame] using hle
      · simp only [overlayNonce, mapGet_mapSet_self, Option.getD_some, le_refl]

theorem foldl_txFilterStep_inv (accounts : List (String × Account)) :
    ∀ (txs : List Tx) (acc : TxFilterResult),
      List.Pairwise txNonceDistinct acc.validTxs →
      (∀ t ∈ acc.validTxs, t.«from» ≠ "coinbase" →
        t.nonce ≤ overlayNonce accounts acc t.«from») →
      List.Pairwise txNonceDistinct (txs.foldl (txFilterStep accounts) acc).validTxs
  | [], acc, hpw, _ => by simpa using hpw
  | tx :: txs, acc, hpw, hinv => by
    rw [List.foldl_cons]
    obtain ⟨hpw1, hinv1⟩ := txFilterStep_inv accounts acc tx hpw hinv
    exact foldl_txFilterStep_inv accounts txs (txFilterStep accounts acc tx) hpw1 hinv1

theorem coinbase_mem_foldl (accounts : List (String × Account)) :
    ∀ (txs : List Tx) (acc : TxFilterResult) (tx : Tx),
      tx ∈ txs → tx.«from» = "coinbase" →
      tx ∈ (txs.foldl (txFilterStep accounts) acc).validTxs
  | t :: ts, acc, tx, hmem, hcb => by
    rw [List.foldl_cons]
    rcases List.mem_cons.mp hmem with rfl | hmem'
    · have hstep : (txFilterStep accounts acc tx).validTxs = acc.validTxs ++ [tx] := by
        rw [txFilterStep_eq, if_pos hcb]
      obtain ⟨l, hl, -⟩ :=
        foldl_txFilterStep_validTxs accounts ts (txFilterStep accounts acc tx)
      rw [hl, hstep]
      simp
    · exact coinbase_mem_foldl accounts ts (txFilterStep accounts acc t) tx hmem' hcb

/-- **C5 (amended).** The BlockBuilder filter is the deterministic
single pass `createBlockFilter` over balance/nonce overlays seeded from
the ledger: its accepted list is a sublist of the input (order
preserved); a coinbase transaction is always accepted (and credits the
recipient's overlay balance); every other transaction is rejected —
leaving the overlays untouched — iff its sender's overlay balance is
below the amount or its nonce differs from the sender's overlay nonce
plus 1, and otherwise debits the sender, sets the sender's overlay
nonce to the transaction nonce, credits the recipient, and is kept;
and no two *accepted* non-coinbase transactions share the same
`(from, nonce)` — so a later duplicate of an accepted pair is rejected
(a duplicate of a *rejected* transaction can still be accepted, which
is what the counterexample exhibits). -/
theorem createBlockFilter_spec :
    ∀ (accounts : List (String × Account)) (txs : List Tx),
      (createBlockFilter accounts txs).validTxs.Sublist txs
      ∧ List.Pairwise txNonceDistinct (createBlockFilter accounts txs).validTxs
      ∧ (∀ tx ∈ txs, tx.«from» = "coinbase" →
          tx ∈ (createBlockFilter accounts txs).validTxs)
      ∧ (∀ (acc : TxFilterResult) (tx : Tx),
          txFilterStep accounts acc tx =
            if tx.«from» = "coinbase" then
              { acc with
                tempBalances := mapSet acc.tempBalances tx.«to»
                  (overlayBalance accounts acc tx.«to» + tx.amount)
                validTxs := acc.validTxs ++ [tx] }
            else if overlayBalance accounts acc tx.«from» < tx.amount
                ∨ tx.nonce ≠ overlayNonce accounts acc tx.«from» + 1 then acc
            else
              { validTxs := acc.validTxs ++ [tx]
                tempBalances :=
                  mapSet (mapSet acc.tempBalances tx.«from»
                      (overlayBalance accounts acc tx.«from» - tx.amount)) tx.«to»
                    ((mapGet (mapSet acc.tempBalances tx.«from»
                        (overlayBalance accounts acc tx.«from» - tx.amount)) tx.«to»).getD
                      (accountOf accounts tx.«to»).balance + tx.amount)
                tempNonces := mapSet acc.tempNonces tx.«from» tx.nonce }) := by
  intro accounts txs
  refine ⟨?_, ?_, ?_, txFilterStep_eq accounts⟩
  · obtain ⟨l, hl, hs⟩ := foldl_txFilterStep_validTxs accounts txs ⟨[], [], []⟩
    unfold createBlockFilter
    rw [hl]
    simpa using hs
  · exact foldl_txFilterStep_inv accounts txs ⟨[], [], []⟩ (List.Pairwise.nil)
      (by intro t ht; simp at ht)
  · intro tx hmem hcb
    exact coinbase_mem_foldl accounts txs ⟨[], [], []⟩ tx hmem hcb

/-- Witness for the amended C5 theorem: on the concrete ledger
`accounts5` the accepted list of the three-transaction input is a
sublist of the input, and a coinbase transaction in the input is
accepted. -/
theorem createBlockFilter_spec_witness :
    (createBlockFilter accounts5 [dupTxEarly, dupTxMid, dupTxLate]).validTxs.Sublist
        [dupTxEarly, dupTxMid, dupTxLate]
    ∧ cbTx.«from» = "coinbase"
    ∧ cbTx ∈ (createBlockFilter accounts5 [cbTx]).validTxs :=
  ⟨(createBlockFilter_spec accounts5 [dupTxEarly, dupTxMid, dupTxLate]).1, rfl,
    (createBlockFilter_spec accounts5 [cbTx]).2.2.1 cbTx (by simp) rfl⟩

/-- **C5 (counterexample).** The claim as frozen says that of two
transactions with the same `(from, nonce)` the later one is rejected.
That is false when the earlier one was itself rejected: with `A`
holding balance 100 and nonce 0, the input
`[A pays 20 at nonce 2, A pays 10 at nonce 1, A pays 10 at nonce 2]`
filters to `[A pays 10 at nonce 1, A pays 10 at nonce 2]` — the first
nonce-2 transaction is rejected (nonce gap), and the *later*
transaction with the same `(from, nonce) = (A, 2)` is accepted. -/
theorem duplicate_nonce_counterexample :
    (createBlockFilter accounts5 [dupTxEarly, dupTxMid, dupTxLate]).validTxs
        = [dupTxMid, dupTxLate]
    ∧ dupTxEarly.«from» = dupTxLate.«from»
    ∧ dupTxEarly.nonce = dupTxLate.nonce
    ∧ dupTxEarly ≠ dupTxLate
    ∧ dupTxLate ∈ (createBlockFilter accounts5 [dupTxEarly, dupTxMid, dupTxLate]).validTxs := by
  have hval : (createBlockFilter accounts5 [dupTxEarly, dupTxMid, dupTxLate]).validTxs
      = [dupTxMid, dupTxLate] := by
    simp [createBlockFilter, txFilterStep, accounts5, dupTxEarly, dupTxMid, dupTxLate,
      mapGet, mapSet, mapHas, accountOf, List.find?]
    norm_num
  refine ⟨hval, rfl, rfl, ?_, by rw [hval]; simp⟩
  intro h
  have hamt : dupTxEarly.amount = dupTxLate.amount := by rw [h]
  simp [dupTxEarly, dupTxLate] at hamt

theorem merkleLevel_eq_pairUp (f : String → String) :
    ∀ l : List String, merkleLevel f l = (pairUp l).map (fun p => f (p.1 ++ p.2))
  | [] => rfl
  | [x] => by simp [merkleLevel, pairUp]
  | x :: y :: rest => by
    simp [merkleLevel, pairUp, merkleLevel_eq_pairUp f rest]

theorem calculateMerkleRoot_eq_spec (f : String → String) :
    ∀ l : List String, calculateMerkleRoot f l = merkleRootSpec f l
  | [] => by rw [calculateMerkleRoot, merkleRootSpec]
  | [x] => by rw [calculateMerkleRoot, merkleRootSpec]
  | x :: y :: rest => by
    rw [calculateMerkleRoot, merkleRootSpec, merkleLevel_eq_pairUp]
    exact calculateMerkleRoot_eq_spec f ((pairUp (x :: y :: rest)).map (fun p => f (p.1 ++ p.2)))
termination_by l => l.length
decreasing_by
  simp only [List.length_map, pairUp_length, List.length_cons]
  omega

/-- **C9.** The source's Merkle root agrees with the reference
definition of §4.2 (`merkleRootSpec`: pair adjacent digests, duplicate
the last on odd levels, `parent = hash(left || right)`, repeat) on every
leaf sequence; the empty sequence yields the 64-zero root and a
singleton returns its digest unchanged; consequently a block built with
an empty (filtered) transaction list has `txRoot = 0x00…00`, and a
single-transaction block has `txRoot` equal to that transaction's
hash. -/
theorem merkle_root_matches_spec :
    (∀ (f : String → String) (l : List String),
        calculateMerkleRoot f l = merkleRootSpec f l)
    ∧ (∀ f : String → String, calculateMerkleRoot f [] = zero64)
    ∧ (∀ (f : String → String) (x : String), calculateMerkleRoot f [x] = x)
    ∧ (∀ (C : Crypto) (I : NodeIdentity) (expF : ℚ → ℚ) (st : NodeState) (epoch : ℕ)
        (receipts : List Receipt) (txs : List Tx) (now : ℕ),
        ((createBlock C I expF st epoch receipts txs now).transactions = [] →
          (createBlock C I expF st epoch receipts txs now).txRoot = zero64)
        ∧ ∀ tx : Tx, (createBlock C I expF st epoch receipts txs now).transactions = [tx] →
            (createBlock C I expF st epoch receipts txs now).txRoot = C.hashTx tx) := by
  have hempty : ∀ f : String → String, calculateMerkleRoot f [] = zero64 := by
    intro f
    rw [calculateMerkleRoot]
  have hone : ∀ (f : String → String) (x : String), calculateMerkleRoot f [x] = x := by
    intro f x
    rw [calculateMerkleRoot]
  refine ⟨calculateMerkleRoot_eq_spec, hempty, hone, ?_⟩
  intro C I expF st epoch receipts txs now
  have htx : (createBlock C I expF st epoch receipts txs now).transactions
      = (createBlockFilter st.accounts txs).validTxs := rfl
  have hroot : (createBlock C I expF st epoch receipts txs now).txRoot
      = calculateMerkleRoot C.hashStr
          ((createBlockFilter st.accounts txs).validTxs.map C.hashTx) := rfl
  constructor
  · intro h
    rw [htx] at h
    rw [hroot, h, List.map_nil, hempty]
  · intro tx h
    rw [htx] at h
    rw [hroot, h, List.map_singleton, hone]

/-- Witness for C9: a block built from an empty transaction pool on a
fresh node carries the all-zero `txRoot`. -/
theorem merkle_root_matches_spec_witness :
    (createBlock cTriv idN1 (fun _ => 0) emptyState 1 [] [] 0).transactions = []
    ∧ (createBlock cTriv idN1 (fun _ => 0) emptyState 1 [] [] 0).txRoot = zero64 :=
  ⟨rfl, (merkle_root_matches_spec.2.2.2 cTriv idN1 (fun _ => 0) emptyState 1 [] [] 0).1 rfl⟩

/-- **C10.** The `/view-change` handler never reads the message's
signature: two messages identical except in the signature field
(including an empty one) produce identical states; the per-
`(epoch, newView)` tally is a set of `from` strings, so re-processing
the same message is a no-op; and once the tally (after inserting the
sender) reaches `⌈N · q⌉` for an epoch-matching, view-increasing
message, `currentView` is set to `newView` — all without any signature
verification. -/
theorem handleViewChange_signature_independent :
    (∀ (st : NodeState) (e ov nv : ℕ) (f s1 s2 : String),
        handleViewChange st ⟨e, ov, nv, f, s1⟩ = handleViewChange st ⟨e, ov, nv, f, s2⟩)
    ∧ (∀ (st : NodeState) (m : ViewChangeMsg),
        handleViewChange (handleViewChange st m) m = handleViewChange st m)
    ∧ (∀ (st : NodeState) (m : ViewChangeMsg),
        m.epoch = st.currentEpoch →
        st.currentView < m.newView →
        votesNeeded (st.peers.length + 1)
            ≤ (setAdd ((mapGet st.viewChangeVotes
                (toString m.epoch ++ "-" ++ toString m.newView)).getD []) m.«from»).length →
        (handleViewChange st m).currentView = m.newView) := by
  refine ⟨fun st e ov nv f s1 s2 => rfl, ?_, ?_⟩
  · intro st m
    by_cases h1 : m.epoch ≠ st.currentEpoch
    · have e1 : handleViewChange st m = st := by
        unfold handleViewChange
        rw [if_pos h1]
      rw [e1]
      exact e1
    · by_cases h2 : m.newView ≤ st.currentView
      · have e1 : handleViewChange st m = st := by
          unfold handleViewChange
          rw [if_neg h1, if_pos h2]
        rw [e1]
        exact e1
      · by_cases hq : votesNeeded (st.peers.length + 1)
            ≤ (setAdd ((mapGet st.viewChangeVotes
                (toString m.epoch ++ "-" ++ toString m.newView)).getD []) m.«from»).length
        · have e1 : handleViewChange st m = { st with
              viewChangeVotes := mapSet st.viewChangeVotes
                (toString m.epoch ++ "-" ++ toString m.newView)
                (setAdd ((mapGet st.viewChangeVotes
                  (toString m.epoch ++ "-" ++ toString m.newView)).getD []) m.«from»)
              currentView := m.newView
              proposedBlock := none
              votes := []
              statsViewChanges := st.statsViewChanges + 1 } := by
            simp only [handleViewChange]
            rw [if_neg h1, if_neg h2, if_pos hq]
          rw [e1]
          simp only [handleViewChange]
          rw [if_neg h1, if_pos (le_refl m.newView)]
        · have e1 : handleViewChange st m = { st with
              viewChangeVotes := mapSet st.viewChangeVotes
                (toString m.epoch ++ "-" ++ toString m.newView)
                (setAdd ((mapGet st.viewChangeVotes
                  (toString m.epoch ++ "-" ++ toString m.newView)).getD []) m.«from») } := by
            simp only [handleViewChange]
            rw [if_neg h1, if_neg h2, if_neg hq]
          rw [e1]
          simp only [handleViewChange]
          rw [if_neg h1, if_neg h2, mapGet_mapSet_self]
          simp only [Option.getD_some]
          rw [setAdd_of_mem (mem_setAdd_self _ _), mapSet_mapSet_same]
          rw [if_neg hq]
  · intro st m h1 h2 h3
    simp only [handleViewChange]
    rw [if_neg (by simp [h1]), if_neg (by omega), if_pos h3]

/-- Witness for C10's quorum conjunct: in a two-node network with one
prior view-change sender recorded for `(3, 1)`, the second sender's
message reaches quorum (`⌈2 · 0.67⌉ = 2`) and sets `currentView := 1`
(its `signature` field `"sigZ"` is never examined). -/
theorem handleViewChange_signature_independent_witness :
    viewChangeMsg2.epoch = viewChangeState.currentEpoch
    ∧ viewChangeState.currentView < viewChangeMsg2.newView
    ∧ votesNeeded (viewChangeState.peers.length + 1)
        ≤ (setAdd ((mapGet viewChangeState.viewChangeVotes
            (toString viewChangeMsg2.epoch ++ "-" ++ toString viewChangeMsg2.newView)).getD [])
            viewChangeMsg2.«from»).length
    ∧ (handleViewChange viewChangeState viewChangeMsg2).currentView
        = viewChangeMsg2.newView := by
  have hq : votesNeeded (viewChangeState.peers.length + 1)
      ≤ (setAdd ((mapGet viewChangeState.viewChangeVotes
          (toString viewChangeMsg2.epoch ++ "-" ++ toString viewChangeMsg2.newView)).getD [])
          viewChangeMsg2.«from»).length := by
    have h2 : votesNeeded 2 = 2 := by
      rw [votesNeeded, quorumFraction]
      norm_num [Nat.ceil_eq_iff]
    have hkey : toString viewChangeMsg2.epoch ++ "-" ++ toString viewChangeMsg2.newView
        = "3-1" := rfl
    rw [hkey]
    simp [viewChangeState, viewChangeMsg2, emptyState, mapGet, setAdd, List.find?, h2]
  exact ⟨rfl, by decide, hq,
    handleViewChange_signature_independent.2.2 viewChangeState viewChangeMsg2 rfl
      (by decide) hq⟩

/-- **C8.** The spec's effectiveness update uses
`Δd = epochDuration / 86400`, i.e. `1/8640` days for the 10-second
epochs the node is configured with.  The code hard-codes
`days = 1/144` (its comment "~144 epochs/day" corresponds to 10-minute
epochs) in `calculateEffectivenessUpdates`.  Instantiated over `ℝ` with
`Math.exp = Real.exp`: a known node with effectiveness 1 and no receipt
decays to `exp(-(1/144)/7)`, which differs from the claim's
`exp(-(1/8640)/7)`. -/
theorem effectiveness_days_code_bug :
    calculateEffectivenessUpdates (α := ℝ) Real.exp idN1 [] 1 []
        = [("a1", Real.exp (-(1 / 144) / 7))]
    ∧ Real.exp (-(1 / 144) / 7) ≠ Real.exp (-(1 / 8640) / 7) := by
  constructor
  · simp [calculateEffectivenessUpdates, idN1, mapGet, mapSet, mapHas]
    rw [max_eq_right (le_min zero_le_one (Real.exp_pos _).le),
      min_eq_right (Real.exp_le_one_iff.mpr (by norm_num))]
  · intro h
    rw [Real.exp_eq_exp] at h
    norm_num at h

/-- **C3 (counterexample).** The claim says the `/propose` handler
rejects (and does not vote for) any block whose leader is not the
elected leader, whose hash field mismatches the recomputed hash, whose
leader signature fails, or whose transactions fail the §4.5 filter.
`wrongLeaderBlock` violates all four at once, but because its
`previousHash` matches `alice`'s chain head the handler performs none
of those checks: it stores the proposal and returns `ok: true` with a
vote. -/
theorem propose_unvalidated_counterexample :
    (handleBlockProposal cC3 idAlice aliceState wrongLeaderBlock).2.ok = true
    ∧ (handleBlockProposal cC3 idAlice aliceState wrongLeaderBlock).2.vote.isSome
    ∧ wrongLeaderBlock.previousHash = chainHead aliceState
    ∧ wrongLeaderBlock.leader ≠ electLeader cC3 idAlice aliceState wrongLeaderBlock.epoch
    ∧ wrongLeaderBlock.hash ≠ cC3.hashCore wrongLeaderBlock.toBlockCore
    ∧ cC3.verifySig wrongLeaderBlock.hash wrongLeaderBlock.leaderSignature
        wrongLeaderBlock.leaderPubKey = false
    ∧ wrongLeaderBlock.transactions ≠ []
    ∧ (createBlockFilter aliceState.accounts wrongLeaderBlock.transactions).validTxs
        = [] := by
  refine ⟨by decide, by decide, by decide, by decide, by decide, by decide, by decide, ?_⟩
  simp [createBlockFilter, txFilterStep, aliceState, emptyState, wrongLeaderBlock,
    unfundedTx, mapGet, mapSet, mapHas, accountOf]

/-- **C3 (amended).** What the `/propose` handler actually checks: it
returns `ok: true` (with a vote, and it votes exactly when it accepts)
iff no equivocation is detected against the stored proposals, every
receipt carries `challengeId`, `from`, `to` and `signature`, and either
the block's `previousHash` equals the local chain head (in which case
leader identity, hash integrity, leader signature and transaction
validity are *not* examined) or — the "simplified sync" path — the hash
field matches the recomputed canonical hash and the leader signature
verifies. -/
theorem handleBlockProposal_accept_iff :
    ∀ (C : Crypto) (I : NodeIdentity) (st : NodeState) (b : Block),
      ((handleBlockProposal C I st b).2.ok = true ↔
        ((checkEquivocation st.seenProposals b).1 = none
          ∧ verifyBlockReceipts b.receipts = none
          ∧ (b.previousHash = chainHead st
              ∨ (b.hash = C.hashCore b.toBlockCore
                  ∧ C.verifySig b.hash b.leaderSignature b.leaderPubKey = true))))
      ∧ ((handleBlockProposal C I st b).2.vote.isSome
          ↔ (handleBlockProposal C I st b).2.ok = true) := by
  intro C I st b
  rcases hE : checkEquivocation st.seenProposals b with ⟨ev, seen1⟩
  cases ev with
  | some evidence =>
    simp only [handleBlockProposal, hE]
    simp
  | none =>
    cases hR : verifyBlockReceipts b.receipts with
    | some reason =>
      simp only [handleBlockProposal, hE, hR]
      simp
    | none =>
      by_cases hPrev : b.previousHash = chainHead { st with seenProposals := seen1 }
      · have hPrev' : b.previousHash = chainHead st := by
          simpa [chainHead] using hPrev
        simp only [handleBlockProposal, hE, hR]
        rw [if_neg (by simp [hPrev]), if_neg (by simp [hPrev])]
        simp [hPrev']
      · have hPrev' : ¬ b.previousHash = chainHead st := by
          simpa [chainHead] using hPrev
        by_cases hHash : b.hash = C.hashCore b.toBlockCore
        · by_cases hVer : C.verifySig b.hash b.leaderSignature b.leaderPubKey = true
          · simp only [handleBlockProposal, hE, hR]
            rw [if_neg (by simp [hHash]), if_neg (by simp [hVer])]
            refine ⟨iff_of_true (by simp) ⟨by trivial, by trivial, Or.inr ⟨hHash, hVer⟩⟩,
              by simp⟩
          · simp only [handleBlockProposal, hE, hR]
            rw [if_neg (by simp [hHash]), if_pos ⟨hPrev, by simpa using hVer⟩]
            simp [hPrev', hVer]
        · simp only [handleBlockProposal, hE, hR]
          rw [if_pos ⟨hPrev, hHash⟩]
          simp [hPrev', hHash]

end Anvil
